import Mathlib

/-!
Verification of the computational core of `skgstat.SpaceTimeVariogram`
(source file `src/skgstat/SpaceTimeVariogram.py`), as a shallow embedding.

Modelling conventions:
* numeric observation values and distances are rationals (`ℚ`);
* numpy arrays become Lean lists (matrices become lists of row lists);
* `None`-initialised caches of the Python object become `Option` fields;
* a Python method that can raise becomes a function returning `Except`
  (when it cannot also mutate) or a pair of the new state and an
  `Option String` error (when the exception may leave mutations behind).
-/

namespace STV

/-- The pair enumeration shared by the nested loops of `_calc_diff`
(`for xi in range(n): for xj in range(n): if xi < xj: ...`) and by the
flattened upper-triangle layout of `scipy.spatial.distance.pdist`:
the strict upper triangle of an `n × n` index square, row major. -/
def upperPairs (n : ℕ) : List (ℕ × ℕ) :=
  (List.range n).flatMap fun i =>
    ((List.range n).filter fun j => decide (i < j)).map fun j => (i, j)

/-- Embeds `SpaceTimeVariogram._calc_diff` (lines 645-696): the pairwise
difference tensor.  The Python code allocates an `(xn, tn)` matrix (`xn`,
`tn` the sizes of the two pdist arrays, i.e. the two pair counts) and fills
entry `[xidx][tidx]` with `v[xi, ti] - v[xj, tj]`, where `xidx` counts the
space pairs `(xi, xj)`, `xi < xj`, and `tidx` the time pairs `(ti, tj)`,
`ti < tj`, both in the loop order of `upperPairs`.  `v i j` models the
value-matrix access `values[i, j]`; `n` and `t` are `values.shape`. -/
def calc_diff (v : ℕ → ℕ → ℚ) (n t : ℕ) : List (List ℚ) :=
  (upperPairs n).map fun p => (upperPairs t).map fun q => v p.1 q.1 - v p.2 q.2

/-- Row-major (lexicographic) order on index pairs. -/
def pairLexLt (p q : ℕ × ℕ) : Prop := p.1 < q.1 ∨ (p.1 = q.1 ∧ p.2 < q.2)

/-- `l` enumerates exactly the strict-upper-triangle pairs of an `n × n`
square, in row-major increasing-index order. -/
def RowMajorUpperEnum (n : ℕ) (l : List (ℕ × ℕ)) : Prop :=
  (∀ p : ℕ × ℕ, p ∈ l ↔ p.1 < p.2 ∧ p.2 < n) ∧ l.Pairwise pairLexLt

lemma length_filter_lt_range (i n : ℕ) :
    ((List.range n).filter fun j => decide (i < j)).length = n - (i + 1) := by
  induction n with
  | zero => simp
  | succ m ih =>
      rw [List.range_succ, List.filter_append, List.length_append, ih]
      by_cases h : i < m
      · simp only [List.filter_cons, List.filter_nil, decide_eq_true h, if_pos]
        simp only [List.length_cons, List.length_nil]
        omega
      · simp only [List.filter_cons, List.filter_nil]
        rw [if_neg (by simpa using h)]
        simp only [List.length_nil]
        omega

lemma sum_map_range (f : ℕ → ℕ) (k : ℕ) :
    (List.map f (List.range k)).sum = ∑ j ∈ Finset.range k, f j := by
  induction k with
  | zero => simp
  | succ m ih =>
      rw [List.range_succ, List.map_append, List.sum_append, ih,
        Finset.sum_range_succ]
      simp

lemma length_upperPairs (n : ℕ) : (upperPairs n).length = n * (n - 1) / 2 := by
  unfold upperPairs
  rw [List.length_flatMap]
  have h1 : List.map
      (List.length ∘ fun i =>
        (((List.range n).filter fun j => decide (i < j)).map fun j => (i, j)))
      (List.range n) = List.map (fun i => n - (i + 1)) (List.range n) := by
    apply List.map_congr_left
    intro i _
    simp [length_filter_lt_range]
  rw [h1, sum_map_range]
  have h3 : ∑ j ∈ Finset.range n, (n - (j + 1)) = ∑ j ∈ Finset.range n, j := by
    have hr := Finset.sum_range_reflect (fun j => j) n
    have he : ∀ j ∈ Finset.range n, n - (j + 1) = n - 1 - j := by
      intro j _; omega
    rw [Finset.sum_congr rfl he, hr]
  rw [h3, Finset.sum_range_id]

lemma mem_upperPairs (n : ℕ) (p : ℕ × ℕ) :
    p ∈ upperPairs n ↔ p.1 < p.2 ∧ p.2 < n := by
  unfold upperPairs
  simp only [List.mem_flatMap, List.mem_map, List.mem_filter, List.mem_range,
    decide_eq_true_eq]
  constructor
  · rintro ⟨i, hi, j, ⟨hj, hij⟩, rfl⟩
    exact ⟨hij, hj⟩
  · rintro ⟨h1, h2⟩
    exact ⟨p.1, lt_trans h1 h2, p.2, ⟨h2, h1⟩, rfl⟩

lemma pairwise_flatMap_of {α β : Type} (R : β → β → Prop) (f : α → List β) :
    ∀ l : List α, (∀ a ∈ l, (f a).Pairwise R) →
      l.Pairwise (fun a b => ∀ x ∈ f a, ∀ y ∈ f b, R x y) →
      (l.flatMap f).Pairwise R := by
  intro l
  induction l with
  | nil => simp
  | cons a l ih =>
      intro h1 h2
      rw [List.flatMap_cons, List.pairwise_append]
      rw [List.pairwise_cons] at h2
      refine ⟨h1 a (List.mem_cons_self a l),
        ih (fun b hb => h1 b (List.mem_cons_of_mem a hb)) h2.2, ?_⟩
      intro x hx y hy
      obtain ⟨b, hb, hyb⟩ := List.mem_flatMap.mp hy
      exact h2.1 b hb x hx y hyb

lemma pairwise_upperPairs (n : ℕ) : (upperPairs n).Pairwise pairLexLt := by
  apply pairwise_flatMap_of
  · intro i _
    have hp : ((List.range n).filter fun j => decide (i < j)).Pairwise (· < ·) :=
      (List.pairwise_lt_range n).sublist (List.filter_sublist (List.range n))
    exact hp.map _ (fun a b hab => Or.inr ⟨rfl, hab⟩)
  · apply (List.pairwise_lt_range n).imp
    intro a b hab
    intro x hx y hy
    obtain ⟨j, hj, rfl⟩ := List.mem_map.mp hx
    obtain ⟨j', hj', rfl⟩ := List.mem_map.mp hy
    exact Or.inl hab

lemma rowMajorUpperEnum_upperPairs (n : ℕ) : RowMajorUpperEnum n (upperPairs n) :=
  ⟨mem_upperPairs n, pairwise_upperPairs n⟩

/-- C1.  For every coordinate set of `n` points and valid value matrix of
shape `(n, t)` with `t > 1`, the difference tensor of `_calc_diff` has
exactly `n·(n−1)/2` rows and `t·(t−1)/2` columns, its row/column indices
run over the strict-upper-triangle pairs in row-major increasing-index
order (the order of `upperPairs`, which is also the pdist distance-array
order), and entry `[a, b]` is `value[i, ti] − value[j, tj]` for the `a`-th
spatial pair `(i, j)` and the `b`-th temporal pair `(ti, tj)`. -/
theorem c1_diff_tensor (v : ℕ → ℕ → ℚ) (n t : ℕ) (ht : 1 < t) :
    (calc_diff v n t).length = n * (n - 1) / 2 ∧
    (∀ row ∈ calc_diff v n t, row.length = t * (t - 1) / 2) ∧
    RowMajorUpperEnum n (upperPairs n) ∧
    RowMajorUpperEnum t (upperPairs t) ∧
    (∀ a b, a < n * (n - 1) / 2 → b < t * (t - 1) / 2 →
      ((calc_diff v n t).getD a []).getD b 0 =
        v ((upperPairs n).getD a (0, 0)).1 ((upperPairs t).getD b (0, 0)).1 -
          v ((upperPairs n).getD a (0, 0)).2 ((upperPairs t).getD b (0, 0)).2) := by
  refine ⟨?_, ?_, rowMajorUpperEnum_upperPairs n, rowMajorUpperEnum_upperPairs t, ?_⟩
  · rw [calc_diff, List.length_map, length_upperPairs]
  · intro row hrow
    obtain ⟨p, _, rfl⟩ := List.mem_map.mp hrow
    rw [List.length_map, length_upperPairs]
  · intro a b ha hb
    have ha' : a < (upperPairs n).length := by rwa [length_upperPairs]
    have hb' : b < (upperPairs t).length := by rwa [length_upperPairs]
    have hrow : (calc_diff v n t).getD a [] =
        (upperPairs t).map
          (fun q => v ((upperPairs n).getD a (0, 0)).1 q.1 -
            v ((upperPairs n).getD a (0, 0)).2 q.2) := by
      rw [calc_diff, List.getD_eq_getElem _ _ (by simpa using ha'),
        List.getElem_map, List.getD_eq_getElem _ _ ha']
    rw [hrow, List.getD_eq_getElem _ _ (by simpa using hb'),
      List.getElem_map, List.getD_eq_getElem _ _ hb']

/-- Concrete value matrix used to instantiate hypotheses in witnesses. -/
def exValues : ℕ → ℕ → ℚ := fun i j => (i : ℚ) * 10 + (j : ℚ)

theorem c1_diff_tensor_witness :
    1 < 3 ∧ (calc_diff exValues 3 3).length = 3 * (3 - 1) / 2 :=
  ⟨by norm_num, (c1_diff_tensor exValues 3 3 (by norm_num)).1⟩

/-- Embeds the classification loop of `_calc_group` (lines 740-748) for one
distance value `x`.  The Python code starts every entry at `-1` and runs
`for i, bounds in enumerate(zip([0] + list(bins), bins)):
  grp[np.where((d > bounds[0]) & (d <= bounds[1]))] = i`,
so per entry the result is the value left by the last overwriting
iteration; the writes for the different entries are independent. -/
def classify1 (x : ℚ) (bins : List ℚ) : ℤ :=
  ((((0 : ℚ) :: bins).zip bins).enum).foldl
    (fun g ib => if ib.2.1 < x ∧ x ≤ ib.2.2 then (ib.1 : ℤ) else g) (-1)

/-- Embeds `SpaceTimeVariogram._calc_group`: the group array parallel to the
distance array `d`, classifying each entry against the bin edges. -/
def calc_group (d : List ℚ) (bins : List ℚ) : List ℤ :=
  d.map fun x => classify1 x bins

/-- The lag-classification rule exactly as the claim states it (spec-side
definition, for comparison): the smallest edge index `i` such that
`edge[i-1] < d ≤ edge[i]`, reading `edge[-1] = 0`, and `-1` when no such
index exists. -/
def specClassify (x : ℚ) (bins : List ℚ) : ℤ :=
  match (List.range bins.length).find?
      (fun i => decide (((0 : ℚ) :: bins).getD i 0 < x ∧ x ≤ bins.getD i 0)) with
  | some i => (i : ℤ)
  | none => -1

lemma enum_zip_eq (bins : List ℚ) :
    (((0 : ℚ) :: bins).zip bins).enum =
      (List.range bins.length).map
        (fun i => (i, (((0 : ℚ) :: bins).getD i 0, bins.getD i 0))) := by
  apply List.ext_getElem
  · rw [List.enum_length, List.length_zip, List.length_map, List.length_range,
      List.length_cons]
    omega
  · intro i h1 h2
    have hi : i < bins.length := by
      simpa using h2
    have hz : i < (((0 : ℚ) :: bins).zip bins).length := by
      rw [List.length_zip, List.length_cons]; omega
    rw [List.getElem_enum, List.getElem_zip, List.getElem_map, List.getElem_range]
    rw [List.getD_eq_getElem _ _ (show i < ((0 : ℚ) :: bins).length by
      rw [List.length_cons]; omega), List.getD_eq_getElem _ _ hi]

lemma foldl_range_eq_init (C : ℕ → Prop) [DecidablePred C] (g0 : ℤ) :
    ∀ k, (∀ i, i < k → ¬C i) →
      (List.range k).foldl (fun g i => if C i then (i : ℤ) else g) g0 = g0 := by
  intro k
  induction k with
  | zero => intro _; simp
  | succ m ih =>
      intro h
      rw [List.range_succ, List.foldl_append, List.foldl_cons, List.foldl_nil]
      rw [if_neg (h m (Nat.lt_succ_self m))]
      exact ih fun i hi => h i (Nat.lt_trans hi (Nat.lt_succ_self m))

lemma foldl_range_eq_last (C : ℕ → Prop) [DecidablePred C] (g0 : ℤ) :
    ∀ k j, j < k → C j → (∀ i, j < i → i < k → ¬C i) →
      (List.range k).foldl (fun g i => if C i then (i : ℤ) else g) g0 = (j : ℤ) := by
  intro k
  induction k with
  | zero => intro j hj; omega
  | succ m ih =>
      intro j hj hCj hafter
      rw [List.range_succ, List.foldl_append, List.foldl_cons, List.foldl_nil]
      by_cases hjm : j = m
      · subst hjm
        rw [if_pos hCj]
      · have hjm' : j < m := by omega
        rw [if_neg (hafter m (by omega) (Nat.lt_succ_self m))]
        exact ih j hjm' hCj fun i h1 h2 => hafter i h1 (by omega)

lemma find?_range_eq_first (C : ℕ → Prop) [DecidablePred C] :
    ∀ k j, j < k → C j → (∀ i, i < j → ¬C i) →
      (List.range k).find? (fun i => decide (C i)) = some j := by
  intro k
  induction k with
  | zero => intro j hj; omega
  | succ m ih =>
      intro j hj hCj hbefore
      rw [List.range_succ, List.find?_append]
      by_cases hjm : j < m
      · rw [ih j hjm hCj hbefore]
        rfl
      · have hjm' : j = m := by omega
        subst hjm'
        have hnone : (List.range j).find? (fun i => decide (C i)) = none := by
          rw [List.find?_eq_none]
          intro i hi
          simpa using hbefore i (List.mem_range.mp hi)
        rw [hnone]
        simp [List.find?_cons, hCj]

lemma sorted_getD_le (bins : List ℚ) (hs : bins.Sorted (· ≤ ·)) (i j : ℕ)
    (hij : i ≤ j) (hj : j < bins.length) :
    bins.getD i 0 ≤ bins.getD j 0 := by
  have hi : i < bins.length := lt_of_le_of_lt hij hj
  rw [List.getD_eq_getElem _ _ hi, List.getD_eq_getElem _ _ hj]
  rcases lt_or_eq_of_le hij with h | h
  · exact hs.rel_get_of_lt (a := ⟨i, hi⟩) (b := ⟨j, hj⟩) h
  · subst h; exact le_refl _

lemma classify_cond_unique (x : ℚ) (bins : List ℚ) (hs : bins.Sorted (· ≤ ·))
    (i j : ℕ) (hi : i < bins.length) (hj : j < bins.length)
    (hCi : ((0 : ℚ) :: bins).getD i 0 < x ∧ x ≤ bins.getD i 0)
    (hCj : ((0 : ℚ) :: bins).getD j 0 < x ∧ x ≤ bins.getD j 0) : i = j := by
  have key : ∀ a b, a < b → b < bins.length →
      x ≤ bins.getD a 0 → ((0 : ℚ) :: bins).getD b 0 < x → False := by
    intro a b hab hb hxa hbx
    have hb1 : ((0 : ℚ) :: bins).getD b 0 = bins.getD (b - 1) 0 := by
      obtain ⟨c, rfl⟩ : ∃ c, b = c + 1 := ⟨b - 1, by omega⟩
      simp [List.getD_cons_succ]
    rw [hb1] at hbx
    have hle : bins.getD a 0 ≤ bins.getD (b - 1) 0 :=
      sorted_getD_le bins hs a (b - 1) (by omega) (by omega)
    exact absurd (lt_of_le_of_lt (le_trans hxa hle) hbx) (lt_irrefl x)
  rcases lt_trichotomy i j with h | h | h
  · exact absurd (key i j h hj hCi.2 hCj.1) id
  · exact h
  · exact absurd (key j i h hi hCj.2 hCi.1) id

lemma classify1_eq_specClassify (x : ℚ) (bins : List ℚ)
    (hs : bins.Sorted (· ≤ ·)) : classify1 x bins = specClassify x bins := by
  unfold classify1 specClassify
  rw [enum_zip_eq, List.foldl_map]
  have hbody : (fun (g : ℤ) (i : ℕ) =>
        if (i, (((0 : ℚ) :: bins).getD i 0, bins.getD i 0)).2.1 < x ∧
            x ≤ (i, (((0 : ℚ) :: bins).getD i 0, bins.getD i 0)).2.2 then
          ((i, (((0 : ℚ) :: bins).getD i 0, bins.getD i 0)).1 : ℤ)
        else g) =
      fun (g : ℤ) (i : ℕ) =>
        if ((0 : ℚ) :: bins).getD i 0 < x ∧ x ≤ bins.getD i 0 then (i : ℤ)
        else g := rfl
  rw [hbody]
  by_cases hex : ∃ j, j < bins.length ∧
      (((0 : ℚ) :: bins).getD j 0 < x ∧ x ≤ bins.getD j 0)
  · obtain ⟨j, hj, hCj⟩ := hex
    rw [foldl_range_eq_last _ _ _ j hj hCj (fun i h1 h2 hCi =>
      absurd (classify_cond_unique x bins hs i j h2 hj hCi hCj) (by omega))]
    rw [find?_range_eq_first _ _ j hj hCj (fun i h1 hCi =>
      absurd (classify_cond_unique x bins hs i j (Nat.lt_trans h1 hj) hj hCi hCj)
        (by omega))]
  · have hnot : ∀ i, i < bins.length →
        ¬(((0 : ℚ) :: bins).getD i 0 < x ∧ x ≤ bins.getD i 0) := by
      intro i hi hCi
      exact hex ⟨i, hi, hCi⟩
    rw [foldl_range_eq_init _ _ _ hnot]
    rw [List.find?_eq_none.mpr (fun i hi => by
      simpa using hnot i (List.mem_range.mp hi))]

/-- C2.  For every distance array and ordered (nondecreasing) bin-edge
sequence, `_calc_group` assigns each distance the smallest edge index `i`
with `edge[i-1] < d ≤ edge[i]` (`edge[-1] = 0`), and `-1` when no such
index exists; in particular a distance exactly equal to `edge[i]` (with a
nonempty class, i.e. `edge[i-1] < edge[i]`) is assigned class `i`, never
class `i+1`. -/
theorem c2_lag_grouping (d bins : List ℚ) (hs : bins.Sorted (· ≤ ·)) :
    calc_group d bins = d.map (fun x => specClassify x bins) ∧
    (∀ i, i < bins.length → ((0 : ℚ) :: bins).getD i 0 < bins.getD i 0 →
      classify1 (bins.getD i 0) bins = (i : ℤ)) := by
  constructor
  · exact List.map_congr_left fun x _ => classify1_eq_specClassify x bins hs
  · intro i hi hlt
    have hCi : ((0 : ℚ) :: bins).getD i 0 < bins.getD i 0 ∧
        bins.getD i 0 ≤ bins.getD i 0 := ⟨hlt, le_refl _⟩
    rw [classify1_eq_specClassify _ _ hs]
    unfold specClassify
    rw [find?_range_eq_first _ _ i hi hCi (fun i' h1 hCi' =>
      absurd (classify_cond_unique _ bins hs i' i (Nat.lt_trans h1 hi) hi hCi' hCi)
        (by omega))]

theorem c2_lag_grouping_witness :
    ([(1 : ℚ), 2, 3].Sorted (· ≤ ·)) ∧
      calc_group [(2 : ℚ)] [(1 : ℚ), 2, 3] =
        [(2 : ℚ)].map (fun x => specClassify x [(1 : ℚ), 2, 3]) ∧
      calc_group [(2 : ℚ)] [(1 : ℚ), 2, 3] = [(1 : ℤ)] :=
  ⟨by decide, (c2_lag_grouping [(2 : ℚ)] [(1 : ℚ), 2, 3] (by decide)).1, by decide⟩

lemma classify1_ne_neg_one_iff (x : ℚ) (bins : List ℚ)
    (hs : bins.Sorted (· ≤ ·)) :
    classify1 x bins ≠ -1 ↔
      ∃ i, i < bins.length ∧
        (((0 : ℚ) :: bins).getD i 0 < x ∧ x ≤ bins.getD i 0) := by
  rw [classify1_eq_specClassify _ _ hs]
  unfold specClassify
  cases hfind : (List.range bins.length).find?
      (fun i => decide (((0 : ℚ) :: bins).getD i 0 < x ∧ x ≤ bins.getD i 0)) with
  | none =>
      simp only [ne_eq, not_true_eq_false, false_iff, not_exists]
      intro i hi
      have hfi := List.find?_eq_none.mp hfind i (List.mem_range.mpr hi.1)
      simp only [decide_eq_true_eq] at hfi
      exact hfi hi.2
  | some i =>
      have hmem : i ∈ List.range bins.length := List.mem_of_find?_eq_some hfind
      have hcond := List.find?_some hfind
      simp only [decide_eq_true_eq] at hcond
      simp only [ne_eq]
      constructor
      · intro _
        exact ⟨i, List.mem_range.mp hmem, hcond⟩
      · intro _
        omega

lemma exists_cond_iff (x : ℚ) (bins : List ℚ) (hs : bins.Sorted (· ≤ ·))
    (hne : bins ≠ []) (hnn : ∀ b ∈ bins, 0 ≤ b) :
    (∃ i, i < bins.length ∧
        (((0 : ℚ) :: bins).getD i 0 < x ∧ x ≤ bins.getD i 0)) ↔
      (0 < x ∧ x ≤ bins.getD (bins.length - 1) 0) := by
  have hk : 0 < bins.length := List.length_pos.mpr hne
  constructor
  · rintro ⟨i, hi, hlo, hhi⟩
    constructor
    · rcases Nat.eq_zero_or_pos i with h0 | hpos
      · subst h0
        simpa using hlo
      · obtain ⟨c, rfl⟩ : ∃ c, i = c + 1 := ⟨i - 1, by omega⟩
        have hc : ((0 : ℚ) :: bins).getD (c + 1) 0 = bins.getD c 0 := by
          simp [List.getD_cons_succ]
        have hmem : bins.getD c 0 ∈ bins := by
          rw [List.getD_eq_getElem _ _ (show c < bins.length by omega)]
          exact List.getElem_mem _
        have h0 : (0 : ℚ) ≤ bins.getD c 0 := hnn _ hmem
        rw [hc] at hlo
        exact lt_of_le_of_lt h0 hlo
    · exact le_trans hhi (sorted_getD_le bins hs i (bins.length - 1) (by omega)
        (by omega))
  · rintro ⟨hx0, hxl⟩
    have hexP : ∃ i, x ≤ bins.getD i 0 ∧ i < bins.length :=
      ⟨bins.length - 1, hxl, by omega⟩
    have hspec := Nat.find_spec hexP
    have hjk : Nat.find hexP < bins.length := hspec.2
    refine ⟨Nat.find hexP, hjk, ?_, hspec.1⟩
    rcases Nat.eq_zero_or_pos (Nat.find hexP) with h0 | hpos
    · rw [h0]
      simpa using hx0
    · obtain ⟨c, hc⟩ : ∃ c, Nat.find hexP = c + 1 := ⟨Nat.find hexP - 1, by omega⟩
      have hcmin : ¬(x ≤ bins.getD c 0 ∧ c < bins.length) :=
        Nat.find_min hexP (by omega)
      have hck : c < bins.length := by omega
      have hcx : bins.getD c 0 < x := by
        by_contra h
        exact hcmin ⟨le_of_not_lt h, hck⟩
      rw [hc]
      simpa [List.getD_cons_succ] using hcx

/-- C7 (as stated) is false: a pairwise distance of exactly `0` (coincident
points) is classified `-1` by `_calc_group` even though it is `≤` the last
bin edge.  With distance array `[0]` and edges `[1]`, the classified count
is `0` while the count of distances `≤ 1` is `1`. -/
theorem c7_count_counterexample :
    ¬(((calc_group [(0 : ℚ)] [(1 : ℚ)]).filter fun g => g ≠ -1).length =
      ([(0 : ℚ)].filter fun y => y ≤ (1 : ℚ)).length) := by
  decide

/-- C7 amended.  For every distance array and every ordered sequence of
nonnegative bin edges, the number of entries `_calc_group` assigns a class
index other than `-1` equals the number of distances `d` with
`0 < d ≤ last edge` (strict positivity is forced by the counterexample:
zero distances are always unclassified). -/
theorem c7_classified_count (d bins : List ℚ) (hs : bins.Sorted (· ≤ ·))
    (hne : bins ≠ []) (hnn : ∀ b ∈ bins, 0 ≤ b) :
    ((calc_group d bins).filter fun g => g ≠ -1).length =
      (d.filter fun y => 0 < y ∧ y ≤ bins.getD (bins.length - 1) 0).length := by
  unfold calc_group
  rw [List.filter_map, List.length_map]
  congr 1
  apply List.filter_congr
  intro y _
  simp only [Function.comp_apply, decide_eq_decide]
  rw [ne_eq, ← ne_eq]
  rw [classify1_ne_neg_one_iff y bins hs]
  exact exists_cond_iff y bins hs hne hnn

theorem c7_classified_count_witness :
    ([(1 : ℚ), 2].Sorted (· ≤ ·)) ∧
      ((calc_group [(0 : ℚ), 1, 3] [(1 : ℚ), 2]).filter fun g => g ≠ -1).length =
        ([(0 : ℚ), 1, 3].filter fun y =>
          0 < y ∧ y ≤ [(1 : ℚ), 2].getD ([(1 : ℚ), 2].length - 1) 0).length :=
  ⟨by decide, c7_classified_count [(0 : ℚ), 1, 3] [(1 : ℚ), 2] (by decide)
    (by decide) (by decide)⟩

/-- Models Python's `str.lower()` (kernel-computable). -/
def lowerStr (s : String) : String := ⟨s.data.map Char.toLower⟩

/-- An estimator as the instance stores it: its Python `__name__` together
with the reduction function applied to a sequence of signed differences. -/
structure Estimator where
  name : String
  f : List ℚ → ℚ

/-- Embeds `np.where(grp == g)[0]`: the indices whose group value is `g`,
in increasing order. -/
def whereEq (grp : List ℤ) (g : ℤ) : List ℕ :=
  (List.range grp.length).filter fun i => decide (grp.getD i 0 = g)

/-- Embeds the `diff_select` closure inside `lag_classes` (lines 565-566):
`self._diff[np.where(xgrp == x)[0]][:, np.where(tgrp == t)[0]]` followed by
`.flatten()` — the rows with spatial group `x`, each restricted to the
columns with temporal group `t`, flattened row-major. -/
def diff_select (diff : List (List ℚ)) (xgrp tgrp : List ℤ) (x t : ℤ) :
    List ℚ :=
  (((whereEq xgrp x).map fun i => diff.getD i []).map fun row =>
    (whereEq tgrp t).map fun j => row.getD j 0).flatten

/-- Embeds the `lag_classes` iterator (lines 545-571): it yields
`diff_select(x, t).flatten()` for `x` over the space lags (outer loop) and
`t` over the time lags (inner loop). -/
def lag_classes (diff : List (List ℚ)) (xgrp tgrp : List ℤ)
    (x_lags t_lags : ℕ) : List (List ℚ) :=
  (List.range x_lags).flatMap fun (x : ℕ) =>
    (List.range t_lags).map fun (t : ℕ) =>
      diff_select diff xgrp tgrp (x : ℤ) (t : ℤ)

/-- Embeds `_get_experimental` (lines 573-584): raises `NotImplementedError`
when the configured estimator's `__name__` is `'entropy'`, before any cell
is computed; otherwise returns the `np.fromiter` array of one estimator
value per yielded lag class — a flat 1-D array. -/
def get_experimental (est : Estimator) (diff : List (List ℚ))
    (xgrp tgrp : List ℤ) (x_lags t_lags : ℕ) : Except String (List ℚ) :=
  if est.name = "entropy" then .error "NotImplementedError"
  else .ok ((lag_classes diff xgrp tgrp x_lags t_lags).map est.f)

/-- Embeds `_get_member` (lines 819-822); its body is the same row/column
selection expression as `diff_select`, written a second time in the
source. -/
def get_member (diff : List (List ℚ)) (xgrp tgrp : List ℤ) (xlag tlag : ℤ) :
    List ℚ :=
  (((whereEq xgrp xlag).map fun i => diff.getD i []).map fun row =>
    (whereEq tgrp tlag).map fun j => row.getD j 0).flatten

/-- Embeds `get_marginal` (lines 779-817): sweep one axis with the other
fixed at `lag`, applying the estimator to each `_get_member` selection. -/
def get_marginal (est : Estimator) (diff : List (List ℚ))
    (xgrp tgrp : List ℤ) (x_lags t_lags : ℕ) (axis : String) (lag : ℤ) :
    Except String (List ℚ) :=
  if lowerStr axis = "space" ∨ lowerStr axis = "s" then
    .ok ((List.range x_lags).map fun (i : ℕ) =>
      est.f (get_member diff xgrp tgrp (i : ℤ) lag))
  else if lowerStr axis = "time" ∨ lowerStr axis = "t" then
    .ok ((List.range t_lags).map fun (j : ℕ) =>
      est.f (get_member diff xgrp tgrp lag (j : ℤ)))
  else .error "axis can either be space or time."

lemma length_lag_classes (diff : List (List ℚ)) (xgrp tgrp : List ℤ)
    (X T : ℕ) : (lag_classes diff xgrp tgrp X T).length = X * T := by
  unfold lag_classes
  rw [List.length_flatMap]
  have h : List.map
      (List.length ∘ fun (x : ℕ) => (List.range T).map
        fun (t : ℕ) => diff_select diff xgrp tgrp (x : ℤ) (t : ℤ))
        (List.range X) =
      List.map (fun _ => T) (List.range X) := by
    apply List.map_congr_left
    intro x _
    simp
  rw [h, sum_map_range]
  rw [Finset.sum_const, Finset.card_range, smul_eq_mul]

lemma getD_flatMap_range_map {α : Type} (f : ℕ → ℕ → α) (dflt : α) (T : ℕ) :
    ∀ X x t, x < X → t < T →
      ((List.range X).flatMap fun i => (List.range T).map fun j => f i j).getD
        (x * T + t) dflt = f x t := by
  intro X
  induction X with
  | zero => intro x t hx; omega
  | succ m ih =>
      intro x t hx ht
      rw [List.range_succ, List.flatMap_append, List.flatMap_singleton]
      have hlen : ((List.range m).flatMap fun i =>
          (List.range T).map fun j => f i j).length = m * T := by
        rw [List.length_flatMap]
        have h : List.map
            (List.length ∘ fun i => (List.range T).map fun j => f i j)
            (List.range m) = List.map (fun _ => T) (List.range m) := by
          apply List.map_congr_left
          intro i _
          simp
        rw [h, sum_map_range, Finset.sum_const, Finset.card_range, smul_eq_mul]
      by_cases hxm : x < m
      · have hidx : x * T + t < m * T := by
          have h1 : x * T + t < (x + 1) * T := by
            rw [Nat.succ_mul]
            omega
          exact lt_of_lt_of_le h1 (Nat.mul_le_mul_right T (by omega))
        rw [List.getD_append _ _ _ _ (by rw [hlen]; exact hidx)]
        exact ih x t hxm ht
      · have hxm' : x = m := by omega
        subst hxm'
        rw [List.getD_append_right _ _ _ _ (by rw [hlen]; omega)]
        rw [hlen]
        have hsub : x * T + t - x * T = t := by omega
        rw [hsub]
        rw [List.getD_eq_getElem _ _ (by simpa using ht), List.getElem_map,
          List.getElem_range]

lemma getD_lag_classes (diff : List (List ℚ)) (xgrp tgrp : List ℤ)
    (X T x t : ℕ) (hx : x < X) (ht : t < T) :
    (lag_classes diff xgrp tgrp X T).getD (x * T + t) [] =
      diff_select diff xgrp tgrp x t := by
  unfold lag_classes
  exact getD_flatMap_range_map
    (fun (i j : ℕ) => diff_select diff xgrp tgrp (i : ℤ) (j : ℤ))
    [] T X x t hx ht

/-- Concrete data used by counterexamples and witnesses:
a 3×3 difference tensor, group arrays `[0, 1, 0]` on both axes, two lag
classes per axis, and a simple custom (callable) estimator. -/
def exDiff : List (List ℚ) := [[1, 2, 3], [4, 5, 6], [7, 8, 9]]

def exXgrp : List ℤ := [0, 1, 0]

def exTgrp : List ℤ := [0, 1, 0]

def sumEst : Estimator := ⟨"sum", fun xs => xs.sum⟩

/-- C3 counterexample.  The claim says reading the experimental variogram
returns a two-dimensional array of shape `(x_lags, t_lags)`.  The code
builds it with `np.fromiter`, which yields a **flat 1-D** array of
`x_lags·t_lags` scalars and never reshapes it (`_plot2d` later calls
`z.reshape((self.x_lags, self.t_lags))`, confirming the flat layout).
With `x_lags = t_lags = 2` the result is the flat 4-element array, not an
array with `x_lags = 2` rows. -/
theorem c3_experimental_shape_counterexample :
    (get_experimental sumEst exDiff exXgrp exTgrp 2 2).map List.length =
      .ok (2 * 2) ∧ (2 * 2 : ℕ) ≠ 2 := by
  constructor
  · rfl
  · decide

/-- C3 amended.  Reading the experimental variogram (with a non-entropy
estimator) returns a flat 1-D array of length `x_lags·t_lags`; its entry at
flat index `x·t_lags + t` (space-lag-major order) is the configured
estimator applied to the flattened difference-tensor entries whose spatial
pair is in lag class `x` and whose temporal pair is in lag class `t`. -/
theorem c3_experimental_flat (est : Estimator) (diff : List (List ℚ))
    (xgrp tgrp : List ℤ) (X T : ℕ) (hname : est.name ≠ "entropy") :
    get_experimental est diff xgrp tgrp X T =
      .ok ((lag_classes diff xgrp tgrp X T).map est.f) ∧
    ((lag_classes diff xgrp tgrp X T).map est.f).length = X * T ∧
    (∀ x t, x < X → t < T →
      ((lag_classes diff xgrp tgrp X T).map est.f).getD (x * T + t) 0 =
        est.f (diff_select diff xgrp tgrp x t)) := by
  refine ⟨?_, ?_, ?_⟩
  · unfold get_experimental
    rw [if_neg hname]
  · rw [List.length_map, length_lag_classes]
  · intro x t hx ht
    have hidx : x * T + t < (lag_classes diff xgrp tgrp X T).length := by
      rw [length_lag_classes]
      have h1 : x * T + t < (x + 1) * T := by
        rw [Nat.succ_mul]
        omega
      exact lt_of_lt_of_le h1 (Nat.mul_le_mul_right T (by omega))
    rw [List.getD_eq_getElem _ _ (by simpa using hidx), List.getElem_map,
      ← List.getD_eq_getElem _ [] hidx, getD_lag_classes _ _ _ _ _ _ _ hx ht]

theorem c3_experimental_flat_witness :
    sumEst.name ≠ "entropy" ∧
      get_experimental sumEst exDiff exXgrp exTgrp 2 2 =
        .ok ((lag_classes exDiff exXgrp exTgrp 2 2).map sumEst.f) :=
  ⟨by decide, (c3_experimental_flat sumEst exDiff exXgrp exTgrp 2 2
    (by decide)).1⟩

lemma get_member_eq_diff_select (diff : List (List ℚ)) (xgrp tgrp : List ℤ)
    (xlag tlag : ℤ) :
    get_member diff xgrp tgrp xlag tlag = diff_select diff xgrp tgrp xlag tlag :=
  rfl

/-- C8.  On a preprocessed instance (both reads working from the same cached
difference tensor and group arrays), `get_marginal('space', lag=0)[i]` is
the experimental-surface value of cell `(i, 0)` (flat index `i·t_lags + 0`)
for every `i < x_lags`, and `get_marginal('time', lag=0)[j]` is the value
of cell `(0, j)` (flat index `0·t_lags + j`) for every `j < t_lags`. -/
theorem c8_marginal_matches_surface (est : Estimator) (diff : List (List ℚ))
    (xgrp tgrp : List ℤ) (X T i j : ℕ) (hname : est.name ≠ "entropy")
    (hi : i < X) (hj : j < T) :
    ∃ zs ms mt,
      get_experimental est diff xgrp tgrp X T = .ok zs ∧
      get_marginal est diff xgrp tgrp X T "space" 0 = .ok ms ∧
      get_marginal est diff xgrp tgrp X T "time" 0 = .ok mt ∧
      ms.getD i 0 = zs.getD (i * T + 0) 0 ∧
      mt.getD j 0 = zs.getD (0 * T + j) 0 := by
  refine ⟨(lag_classes diff xgrp tgrp X T).map est.f,
    (List.range X).map fun (a : ℕ) =>
      est.f (get_member diff xgrp tgrp (a : ℤ) 0),
    (List.range T).map fun (b : ℕ) =>
      est.f (get_member diff xgrp tgrp 0 (b : ℤ)),
    ?_, rfl, rfl, ?_, ?_⟩
  · unfold get_experimental
    rw [if_neg hname]
  · rw [List.getD_eq_getElem _ _ (by simpa using hi), List.getElem_map,
      List.getElem_range,
      (c3_experimental_flat est diff xgrp tgrp X T hname).2.2 i 0 hi
        (by omega), get_member_eq_diff_select]
    norm_cast
  · rw [List.getD_eq_getElem _ _ (by simpa using hj), List.getElem_map,
      List.getElem_range,
      (c3_experimental_flat est diff xgrp tgrp X T hname).2.2 0 j
        (by omega) hj, get_member_eq_diff_select]
    norm_cast

theorem c8_marginal_matches_surface_witness :
    sumEst.name ≠ "entropy" ∧ (1 : ℕ) < 2 ∧
      ∃ zs ms mt,
        get_experimental sumEst exDiff exXgrp exTgrp 2 2 = .ok zs ∧
        get_marginal sumEst exDiff exXgrp exTgrp 2 2 "space" 0 = .ok ms ∧
        get_marginal sumEst exDiff exXgrp exTgrp 2 2 "time" 0 = .ok mt ∧
        ms.getD 1 0 = zs.getD (1 * 2 + 0) 0 ∧
        mt.getD 1 0 = zs.getD (0 * 2 + 1) 0 :=
  ⟨by decide, by decide,
    c8_marginal_matches_surface sumEst exDiff exXgrp exTgrp 2 2 1 1
      (by decide) (by decide) (by decide)⟩

/-- Modelled from the spec: the estimator library (`skgstat.estimators`)
belongs to this repository but is not under `src/`.  Every claim settled
here depends only on each built-in estimator's `__name__` (used by the
name dispatch in `set_estimator` and by the entropy gate in
`_get_experimental`); for `matheron` the spec's description, Matheron's
classical semivariance ("half the mean squared difference"), is also
modelled.  The numeric bodies of the other estimators are unconstrained
and unused by every claim, and are given placeholder bodies. -/
def matheron : Estimator :=
  ⟨"matheron", fun xs => (xs.map fun d => d ^ 2).sum / (2 * xs.length)⟩

/-- Modelled from the spec: only the `__name__` is used (see `matheron`). -/
def cressie : Estimator := ⟨"cressie", fun _ => 0⟩

/-- Modelled from the spec: only the `__name__` is used (see `matheron`). -/
def dowd : Estimator := ⟨"dowd", fun _ => 0⟩

/-- Modelled from the spec: only the `__name__` is used (see `matheron`). -/
def genton : Estimator := ⟨"genton", fun _ => 0⟩

/-- Modelled from the spec: only the `__name__` is used (see `matheron`). -/
def minmax : Estimator := ⟨"minmax", fun _ => 0⟩

/-- Modelled from the spec: only the `__name__` is used (see `matheron`). -/
def percentile : Estimator := ⟨"percentile", fun _ => 0⟩

/-- Modelled from the spec: only the `__name__` is used (see `matheron`). -/
def entropy : Estimator := ⟨"entropy", fun _ => 0⟩

/-- C10.  When the configured estimator is the built-in entropy estimator,
`_get_experimental` raises `NotImplementedError` before computing any cell
(for every difference tensor, group arrays and lag counts); for each of
the six other built-in estimator names the entropy check does not raise
and the surface is returned. -/
theorem c10_entropy_gate (diff : List (List ℚ)) (xgrp tgrp : List ℤ)
    (X T : ℕ) :
    get_experimental entropy diff xgrp tgrp X T =
      .error "NotImplementedError" ∧
    get_experimental matheron diff xgrp tgrp X T =
      .ok ((lag_classes diff xgrp tgrp X T).map matheron.f) ∧
    get_experimental cressie diff xgrp tgrp X T =
      .ok ((lag_classes diff xgrp tgrp X T).map cressie.f) ∧
    get_experimental dowd diff xgrp tgrp X T =
      .ok ((lag_classes diff xgrp tgrp X T).map dowd.f) ∧
    get_experimental genton diff xgrp tgrp X T =
      .ok ((lag_classes diff xgrp tgrp X T).map genton.f) ∧
    get_experimental minmax diff xgrp tgrp X T =
      .ok ((lag_classes diff xgrp tgrp X T).map minmax.f) ∧
    get_experimental percentile diff xgrp tgrp X T =
      .ok ((lag_classes diff xgrp tgrp X T).map percentile.f) :=
  ⟨rfl, rfl, rfl, rfl, rfl, rfl, rfl⟩

/-- A Python value assignable to `_t_lags`: the setter accepts anything;
ints and strings are the relevant cases. -/
inductive PyVal
  | int (n : ℤ)
  | str (s : String)
deriving DecidableEq

/-- A named binning strategy (`skgstat.binning`, in this repository but
outside `src/`); only the identity of the selected function is used by the
claims, so the strategies are modelled as tags. -/
inductive BinFunc
  | even_width_lags
  | uniform_count_lags
deriving DecidableEq

/-- The mutable fields of a `SpaceTimeVariogram` instance (the non-plotting
state set up in `__init__`, lines 18-85): inputs, lazily cached derived
arrays (`none` when invalidated), lag configuration, strategy selections
and the fitting parameters.  `cof`/`cov` are only ever `None` in the
covered core (fitting is unimplemented), modelled as `Option Unit`.  The
distance metrics are the default `'euclidean'` (the only metric any claim
exercises). -/
structure STVState where
  X : List (List ℚ)
  values : List (List ℚ)
  xdist : Option (List ℚ)
  tdist : Option (List ℚ)
  x_lags : ℤ
  t_lags_raw : PyVal
  maxlag : Option ℚ
  xbin_func : BinFunc
  tbin_func : BinFunc
  xbins : Option (List ℚ)
  tbins : Option (List ℚ)
  xgroups : Option (List ℤ)
  tgroups : Option (List ℤ)
  diff : Option (List (List ℚ))
  estimator : Estimator
  cof : Option Unit
  cov : Option Unit

/-- Embeds `set_values` (lines 109-146).  `np.asarray` of a ragged nested
list builds an object-dtype array, rejected by the dtype check
(`AttributeError`); unpacking `m, n = values.shape` fails for an empty
input and is re-raised as the shape `ValueError`; the row count must match
the coordinates, and `n > 1` is required.  All checks precede any
mutation; on success `_values` is replaced and only `_diff` is cleared. -/
def set_values (st : STVState) (vals : List (List ℚ)) :
    Except String STVState :=
  match vals with
  | [] => .error "The values shape do not match coordinates."
  | r :: rs =>
      if ¬(rs.all fun row => row.length = r.length) then
        .error "values cannot be converted to a proper (m,n) shaped array."
      else if (r :: rs).length ≠ st.X.length then
        .error "The values shape do not match coordinates."
      else if r.length ≤ 1 then
        .error
          "A SpaceTimeVariogram needs more than one observation on the time axis."
      else .ok { st with values := r :: rs, diff := none }

/-- Embeds the `t_lags` setter (lines 303-310): no validation happens at
set time — any value is stored and the temporal bins and groups are
reset. -/
def set_t_lags (st : STVState) (lags : PyVal) : STVState :=
  { st with t_lags_raw := lags, tbins := none, tgroups := none }

/-- Embeds the `t_lags` getter (lines 293-301): a stored string is only
validated here ('max' yields `values.shape[1] - 1`; any other string
raises `ValueError`). -/
def t_lags_get (st : STVState) : Except String ℤ :=
  match st.t_lags_raw with
  | .str s =>
      if lowerStr s = "max" then .ok ((st.values.headD []).length - 1)
      else .error "Only 'max' supported as string argument."
  | .int n => .ok n

/-- The argument to `set_estimator`: a name or a user-supplied callable. -/
inductive EstArg
  | name (s : String)
  | func (e : Estimator)

/-- Embeds the name dispatch of `set_estimator` (lines 477-496). -/
def estimatorFromName (s : String) : Option Estimator :=
  if lowerStr s = "matheron" then some matheron
  else if lowerStr s = "cressie" then some cressie
  else if lowerStr s = "dowd" then some dowd
  else if lowerStr s = "genton" then some genton
  else if lowerStr s = "minmax" then some minmax
  else if lowerStr s = "percentile" then some percentile
  else if lowerStr s = "entropy" then some entropy
  else none

/-- Embeds `set_estimator` (lines 473-500): it first clears the fitting
parameters (`self.cof, self.cov = None, None`), then dispatches; an
unrecognised name raises only after that assignment (the error message
reproduces the source's missing space, 'pleaseprovide').  A callable is
stored as-is. -/
def set_estimator (st : STVState) (arg : EstArg) : STVState × Option String :=
  let st1 := { st with cof := none, cov := none }
  match arg with
  | .name s =>
      match estimatorFromName s with
      | some e => ({ st1 with estimator := e }, none)
      | none => (st1, some ("Variogram estimator " ++ s ++
          " is not understood, pleaseprovide the function."))
  | .func e => ({ st1 with estimator := e }, none)

/-- In the source (line 366) the second dispatch branch of `set_bin_func`
reads `elif bin_func.lower == 'uniform':` — it compares the bound method
object `bin_func.lower` itself (the method is never called) with the
string, so the test is false for every input string. -/
def lowerMethodEqUniform (_bin_func : String) : Bool := false

/-- The axis switch of `set_bin_func` (lines 371-388).  On a valid axis it
installs the strategy and clears that axis's bins and groups; the final
`self.cof, self.cof = None, None` of the source resets only `cof` (a
typo in the source leaves `cov` untouched). -/
def setBinFuncAxis (st : STVState) (f : BinFunc) (axis : String) :
    STVState × Option String :=
  if lowerStr axis = "space" ∨ lowerStr axis = "s" then
    ({ st with xbin_func := f, xgroups := none, xbins := none, cof := none },
      none)
  else if lowerStr axis = "time" ∨ lowerStr axis = "t" then
    ({ st with tbin_func := f, tgroups := none, tbins := none, cof := none },
      none)
  else (st, some (axis ++ " is not a valid axis"))

/-- Embeds `set_bin_func` (lines 338-388): strategy-name dispatch (with the
source's uncalled `bin_func.lower` in the 'uniform' branch, see
`lowerMethodEqUniform`), then the axis switch. -/
def set_bin_func (st : STVState) (bin_func : String) (axis : String) :
    STVState × Option String :=
  if lowerStr bin_func = "even" then
    setBinFuncAxis st BinFunc.even_width_lags axis
  else if lowerMethodEqUniform bin_func then
    setBinFuncAxis st BinFunc.uniform_count_lags axis
  else (st, some (bin_func ++ " binning method is not known"))

/-- Embeds the temporal leg of the Distance Engine with the default
euclidean metric (`__calc_tdist`, lines 622-643): the time
pseudo-coordinates are `(i, 0)` for `i = 0..t-1`, so the euclidean
distance of the pair `(i, j)`, `i < j`, is `j - i`; `t` is
`values.shape[1]`. -/
def tdist_euclid (t : ℕ) : List ℚ :=
  (upperPairs t).map fun p => ((p.2 - p.1 : ℕ) : ℚ)

/-- Embeds the caching in `__calc_tdist` (lines 622-643): compute only when
`_tdist` is `None`. -/
def calc_tdist (st : STVState) : STVState :=
  match st.tdist with
  | some _ => st
  | none => { st with tdist := some (tdist_euclid (st.values.headD []).length) }

/-- Embeds the `tdistance` property read (lines 257-274). -/
def tdistance (st : STVState) : List ℚ := (calc_tdist st).tdist.getD []

/-- A concrete, fully initialised instance state: 3 collinear points with a
2-step time series; the temporal caches hold exactly what the lazy
computations produce for those values (`tdist_euclid 2 = [1]`, one
temporal bin `[1]`, temporal groups `[0]`, and the 3×1 difference
tensor of the current values). -/
def st0 : STVState :=
  { X := [[0], [1], [2]]
    values := [[1, 2], [3, 4], [5, 6]]
    xdist := none
    tdist := some (tdist_euclid 2)
    x_lags := 2
    t_lags_raw := .int 1
    maxlag := none
    xbin_func := .even_width_lags
    tbin_func := .even_width_lags
    xbins := none
    tbins := some [1]
    xgroups := none
    tgroups := some [0]
    diff := some [[-3], [-5], [-3]]
    estimator := matheron
    cof := none
    cov := none }

/-- C4.  The second dispatch branch of `set_bin_func` compares the
*uncalled* bound method `bin_func.lower` with `'uniform'` (line 366,
missing call parentheses), so the built-in name 'uniform' falls through to
the unknown-method `ValueError` — contradicting the method's own docstring
(lines 341-352, "Both axes support the methods: ['even', 'uniform']") and
the claim.  'even' still dispatches without raising. -/
theorem c4_uniform_dispatch_bug :
    set_bin_func st0 "uniform" "space" =
      (st0, some "uniform binning method is not known") ∧
    (set_bin_func st0 "even" "space").2 = none :=
  ⟨rfl, rfl⟩

/-- Replacement value matrix with a longer (3-step) time series. -/
def vals1 : List (List ℚ) := [[1, 2, 3], [4, 5, 6], [7, 8, 9]]

/-- The state `set_values st0 vals1` produces. -/
def st0v : STVState := { st0 with values := vals1, diff := none }

/-- C5 counterexample.  `set_values` clears only `_diff` (lines 143-146);
the cached temporal distance array, bins and groups survive.  Replacing
the 2-step series of `st0` by the 3-step `vals1` succeeds, yet the next
`tdistance` read still returns the cached `[1]` derived from the old
values instead of recomputing `[1, 2, 1]` from the new ones, and the
temporal bins/groups caches are likewise untouched. -/
theorem c5_set_values_counterexample :
    set_values st0 vals1 = .ok st0v ∧
    tdistance st0v = [1] ∧
    tdist_euclid (vals1.headD []).length = [1, 2, 1] ∧
    ¬(tdistance st0v = tdist_euclid (vals1.headD []).length) ∧
    st0v.tbins = st0.tbins ∧ st0v.tgroups = st0.tgroups := by
  refine ⟨rfl, by decide, by decide, by decide, rfl, rfl⟩

/-- C5 amended.  A successful `set_values` stores the new values and
invalidates only the difference tensor; the temporal distance array, the
temporal bins and the temporal groups (and the spatial caches) are left
exactly as they were, so subsequent reads return quantities derived from
the old values. -/
theorem c5_set_values_invalidation (st : STVState) (vals : List (List ℚ))
    (st' : STVState) (h : set_values st vals = .ok st') :
    st'.values = vals ∧ st'.diff = none ∧
    st'.tdist = st.tdist ∧ st'.tbins = st.tbins ∧ st'.tgroups = st.tgroups ∧
    st'.xdist = st.xdist ∧ st'.xbins = st.xbins ∧ st'.xgroups = st.xgroups := by
  cases vals with
  | nil => exact absurd h (by simp [set_values])
  | cons r rs =>
      simp only [set_values] at h
      split_ifs at h with h1 h2 h3
      simp only [Except.ok.injEq] at h
      subst h
      exact ⟨rfl, rfl, rfl, rfl, rfl, rfl, rfl, rfl⟩

theorem c5_set_values_invalidation_witness :
    set_values st0 vals1 = .ok st0v ∧ st0v.tdist = st0.tdist :=
  ⟨rfl, (c5_set_values_invalidation st0 vals1 st0v rfl).2.2.1⟩

/-- C6 counterexample.  The `t_lags` setter performs no validation: setting
the invalid value `'foo'` raises nothing during the call, stores the value
and resets the temporal bins and groups; the `ValueError` only surfaces at
the next *read* of `t_lags` — the validation error is deferred, not raised
at the setter boundary as claimed. -/
theorem c6_setter_validation_counterexample :
    (set_t_lags st0 (.str "foo")).t_lags_raw = .str "foo" ∧
    (set_t_lags st0 (.str "foo")).tbins = none ∧
    (set_t_lags st0 (.str "foo")).tgroups = none ∧
    t_lags_get (set_t_lags st0 (.str "foo")) =
      .error "Only 'max' supported as string argument." := by
  refine ⟨rfl, rfl, rfl, ?_⟩
  simp only [t_lags_get, set_t_lags]
  rw [if_neg (by decide)]

/-- C6 amended.  Validation is not always at the setter boundary: the
`t_lags` setter accepts every value without raising, stores it and resets
the temporal bins and groups; for a stored string other than `'max'`
(case-insensitively) the `ValueError` is raised only when `t_lags` is next
read. -/
theorem c6_t_lags_deferred_validation (st : STVState) (v : PyVal) :
    (set_t_lags st v).t_lags_raw = v ∧
    (set_t_lags st v).tbins = none ∧
    (set_t_lags st v).tgroups = none ∧
    (∀ s : String, v = .str s → lowerStr s ≠ "max" →
      t_lags_get (set_t_lags st v) =
        .error "Only 'max' supported as string argument.") := by
  refine ⟨rfl, rfl, rfl, ?_⟩
  rintro s rfl hs
  simp only [t_lags_get, set_t_lags]
  rw [if_neg hs]

theorem c6_t_lags_deferred_validation_witness :
    (PyVal.str "foo" = PyVal.str "foo") ∧ lowerStr "foo" ≠ "max" ∧
      t_lags_get (set_t_lags st0 (.str "foo")) =
        .error "Only 'max' supported as string argument." :=
  ⟨rfl, by decide,
    (c6_t_lags_deferred_validation st0 (.str "foo")).2.2.2 "foo" rfl
      (by decide)⟩

/-- C9.  A `set_estimator` call with a valid argument (a recognised name or
a callable — i.e. one that raises nothing) leaves the spatial and temporal
distance arrays, the spatial and temporal bin edges, the spatial and
temporal group arrays and the difference tensor unchanged. -/
theorem c9_set_estimator_frame (st : STVState) (arg : EstArg)
    (h : (set_estimator st arg).2 = none) :
    (set_estimator st arg).1.xdist = st.xdist ∧
    (set_estimator st arg).1.tdist = st.tdist ∧
    (set_estimator st arg).1.xbins = st.xbins ∧
    (set_estimator st arg).1.tbins = st.tbins ∧
    (set_estimator st arg).1.xgroups = st.xgroups ∧
    (set_estimator st arg).1.tgroups = st.tgroups ∧
    (set_estimator st arg).1.diff = st.diff := by
  cases arg with
  | func e => exact ⟨rfl, rfl, rfl, rfl, rfl, rfl, rfl⟩
  | name s =>
      cases hm : estimatorFromName s with
      | some e => simp [set_estimator, hm]
      | none => simp [set_estimator, hm]

theorem c9_set_estimator_frame_witness :
    (set_estimator st0 (EstArg.name "cressie")).2 = none ∧
      (set_estimator st0 (EstArg.name "cressie")).1.diff = st0.diff :=
  ⟨rfl, (c9_set_estimator_frame st0 (EstArg.name "cressie") rfl).2.2.2.2.2.2⟩

end STV
